import Mathlib

/-!
Shallow embedding of the consensus core of `src/blockchain.rs` (the fcoin
node): the block data model, the recursive balance walk `amount`, the
validator `valid_block`, the ingestion routine `block_received`, and the
proof-of-work attempt `proof_of_work` with its nonce-padding helper
`to_32bytes`.

Modelling conventions:
* Rust fixed-size byte arrays (`[u8; 32]`, `[u8; 128]`) are lists of
  naturals; concrete values always have the right length and bytes < 256.
* `HashMap<Hash, Block>` is an association list; `bcGet` returns the first
  binding, which matches the map because ingestion only inserts absent keys.
* The SHA-256 digest comes from the external `sha2` crate, so the block
  hash is a parameter `hashB : Block → Hash` of the functions that use it;
  every theorem quantifies over it.
* `amount` recurses with no structural bound, so the Rust function can
  diverge on a cyclic store; the embedding `amountF` takes explicit fuel and
  `none` models divergence.  Fuel `store length + 1` is exact: a run that
  needs more fuel revisits a key and therefore loops forever in Rust.
* `i128` arithmetic is modelled by `Int` (a walk over a finite store moves
  the accumulator by at most 2^64 + 1 per block, nowhere near 2^127).
* Rust panics (the slice underflow in `to_32bytes`) and divergence are both
  modelled by `Option`, with `none` for the abnormal outcome.
-/

namespace FCoin

/-- A byte value; concrete data uses 0..255. -/
abbrev Byte := Nat

/-- Rust `type Hash = [u8; 32]`. -/
abbrev Hash := List Byte

/-- Rust `type PublicKey = [u8; 128]`. -/
abbrev PublicKey := List Byte

/-- Rust `type Signature = [u8; 128]`. -/
abbrev Signature := List Byte

/-- Rust struct `TransactionDetails { source_public_key, destination_public_key, amount: u64 }`. -/
structure TransactionDetails where
  source_public_key : PublicKey
  destination_public_key : PublicKey
  amount : Nat
  deriving DecidableEq

/-- Rust struct `Transaction { details, source_signature }`. -/
structure Transaction where
  details : TransactionDetails
  source_signature : Signature
  deriving DecidableEq

/-- Rust struct `Block { time, node_public_key, previous_hash, nonce, transaction }`. -/
structure Block where
  time : Nat
  node_public_key : PublicKey
  previous_hash : Hash
  nonce : List Byte
  transaction : Transaction
  deriving DecidableEq

/-- Rust struct `ProtoBlock { nonce, transaction }`. -/
structure ProtoBlock where
  nonce : List Byte
  transaction : Transaction
  deriving DecidableEq

/-- Rust `type Blockchain = HashMap<Hash, Block>`, as an association list. -/
abbrev Blockchain := List (Hash × Block)

/-- The reserved all-zero root hash `[0; 32]`. -/
def rootHash : Hash := List.replicate 32 0

/-- `HashMap::get`: first binding of the key, `none` when absent. -/
def bcGet : Blockchain → Hash → Option Block
  | [], _ => none
  | (k, b) :: rest, h => if k = h then some b else bcGet rest h

/-- Rust `read_public_key_from_disk`, stubbed in the source to `[0; 128]`. -/
def read_public_key_from_disk : PublicKey := List.replicate 128 0

/-- Rust struct `Node { public_key, blockchain, tip_hash, peers }`.  A peer
entry maps a socket address to a write connection; both are external handles,
modelled as opaque numeric identifiers. -/
structure Node where
  public_key : PublicKey
  blockchain : Blockchain
  tip_hash : Hash
  peers : List (Nat × Nat)
  deriving DecidableEq

/-- Rust `Node::new()`: stub key, empty store, all-zero tip, no peers. -/
def Node.new : Node :=
  { public_key := read_public_key_from_disk
    blockchain := []
    tip_hash := rootHash
    peers := [] }

/-- Rust `Node::add_peer`: `HashMap::insert`, replacing any binding of `addr`. -/
def Node.add_peer (n : Node) (addr : Nat) (con : Nat) : Node :=
  { n with peers := (addr, con) :: n.peers.filter (fun p => p.1 != addr) }

/-- The three sequential accumulator updates of one step of Rust `amount`
(blockchain.rs lines 219-229): subtract the transfer when `id` is the source,
add it when `id` is the destination, add 1 when `id` is the miner. -/
def step_value (value : Int) (block : Block) (id : PublicKey) : Int :=
  let v1 := if id = block.transaction.details.source_public_key then
    value - (block.transaction.details.amount : Int) else value
  let v2 := if id = block.transaction.details.destination_public_key then
    v1 + (block.transaction.details.amount : Int) else v1
  if id = block.node_public_key then v2 + 1 else v2

/-- Rust `amount` (blockchain.rs lines 200-236) with explicit fuel; `none`
models divergence of the unbounded Rust recursion.  Each step first rejects a
self-transfer block, then adjusts the accumulator with `step_value` and
follows `previous_hash`. -/
def amountF : Nat → Int → Blockchain → Hash → PublicKey → Option (Except String Int)
  | 0, _, _, _, _ => none
  | fuel + 1, value, blockchain, tip_hash, id =>
    if tip_hash = rootHash then
      some (Except.ok value)
    else
      match bcGet blockchain tip_hash with
      | some block =>
        if block.transaction.details.source_public_key
            = block.transaction.details.destination_public_key then
          some (Except.error "Source and destination are the same!")
        else
          amountF fuel (step_value value block id) blockchain block.previous_hash id
      | none => some (Except.error "Previous hash not found in the blockchain!")

/-- Rust `amount`: the walk with the exact fuel `length + 1`; a walk that
exhausts this fuel revisits a store key, so the Rust recursion diverges. -/
def amount (value : Int) (blockchain : Blockchain) (tip_hash : Hash) (id : PublicKey) :
    Option (Except String Int) :=
  amountF (blockchain.length + 1) value blockchain tip_hash id

/-- Rust `valid_block` (blockchain.rs lines 239-264): run the balance walk at
`previous_hash` for the source key; accept iff it returns `Ok value` with
`value >= amount` and source ≠ destination. -/
def valid_block (block : Block) (blockchain : Blockchain) : Option Bool :=
  match amount 0 blockchain block.previous_hash
      block.transaction.details.source_public_key with
  | some (Except.ok value) =>
    some (decide ((block.transaction.details.amount : Int) ≤ value ∧
      block.transaction.details.source_public_key
        ≠ block.transaction.details.destination_public_key))
  | some (Except.error _) => some false
  | none => none

/-- Rust `block_received` (blockchain.rs lines 266-292): hash the block; if
the hash is already stored, do nothing; otherwise validate, and on success
promote the tip when `previous_hash` equals the current tip, then insert.
`none` models divergence of the validator's walk. -/
def block_received (hashB : Block → Hash) (node : Node) (block : Block) : Option Node :=
  let hash := hashB block
  match bcGet node.blockchain hash with
  | some _ => some node
  | none =>
    match valid_block block node.blockchain with
    | none => none
    | some false => some node
    | some true =>
      let node1 := if block.previous_hash = node.tip_hash then
        { node with tip_hash := hash } else node
      some { node1 with blockchain := (hash, block) :: node1.blockchain }

/-- Little-endian byte value, `BigUint::from_bytes_le`. -/
def fromBytesLE : List Byte → Nat
  | [] => 0
  | b :: rest => b + 256 * fromBytesLE rest

/-- Little-endian digits of a natural number; the first argument is fuel,
always called with fuel ≥ the digit count. -/
def toBytesLEAux : Nat → Nat → List Byte
  | 0, _ => []
  | fuel + 1, n => if n = 0 then [] else n % 256 :: toBytesLEAux fuel (n / 256)

/-- `BigUint::to_bytes_le`: minimal little-endian digits, `[0]` for zero. -/
def bigUintToBytesLE (n : Nat) : List Byte :=
  if n = 0 then [0] else toBytesLEAux n n

/-- Rust `to_32bytes` (blockchain.rs lines 165-174): copy the input into the
tail of a zeroed 32-byte array.  When the input is longer than 32 bytes the
slice bound `32 - n` underflows and the function panics, modelled by `none`. -/
def to_32bytes (byte_vector : List Byte) : Option (List Byte) :=
  if byte_vector.length ≤ 32 then
    some (List.replicate (32 - byte_vector.length) 0 ++ byte_vector)
  else
    none

/-- The difficulty bound of `proof_of_work`: `2^255 - 1` in the source. -/
def DIFFICULTY : Nat := 2 ^ 255 - 1

/-- The nonce of the retry ProtoBlock built on proof-of-work rejection
(blockchain.rs lines 334-339): increment the old nonce as a little-endian
big integer and re-pad with `to_32bytes`. -/
def next_nonce (nonce : List Byte) : Option (List Byte) :=
  to_32bytes (bigUintToBytesLE (fromBytesLE nonce + 1))

/-- The candidate block built by `proof_of_work` from the node's state, the
current timestamp and the pending ProtoBlock. -/
def candidate_block (node : Node) (time : Nat) (pb : ProtoBlock) : Block :=
  { time := time
    node_public_key := node.public_key
    previous_hash := node.tip_hash
    nonce := pb.nonce
    transaction := pb.transaction }

/-- Rust `proof_of_work` (blockchain.rs lines 309-341): build the candidate,
hash it, accept iff the hash read little-endian is below the static bound;
on rejection return the ProtoBlock with the incremented, re-padded nonce.
`none` models the `to_32bytes` panic. -/
def proof_of_work (hashB : Block → Hash) (node : Node) (time : Nat) (pb : ProtoBlock) :
    Option (Except ProtoBlock Block) :=
  let block := candidate_block node time pb
  if fromBytesLE (hashB block) < DIFFICULTY then
    some (Except.ok block)
  else
    match next_nonce pb.nonce with
    | some nn => some (Except.error { nonce := nn, transaction := pb.transaction })
    | none => none

/-- The Balance Oracle walk exactly as the specification words it (§4.1):
starting from `value` and `hash`, while `hash` is not the root look up the
block at `hash`; fail with `InvalidChain` (modelled by `Unit`) when the
block's source equals its destination or when the hash is absent; otherwise
subtract the amount when `identity` is the source, add it when it is the
destination, add 1 when it is the miner, and continue at `previous_hash`;
at the root return the accumulated value.  Fuel as in `amountF`.  This
definition follows the specification text and exists only to be compared
with `amountF`, which is translated from the source. -/
def balance_spec (fuel : Nat) (value : Int) (chain : Blockchain) (hash : Hash)
    (identity : PublicKey) : Option (Except Unit Int) :=
  match fuel with
  | 0 => none
  | fuel + 1 =>
    if hash = rootHash then
      some (Except.ok value)
    else
      match bcGet chain hash with
      | none => some (Except.error ())
      | some block =>
        if block.transaction.details.source_public_key
            = block.transaction.details.destination_public_key then
          some (Except.error ())
        else
          let a1 := if identity = block.transaction.details.source_public_key then
            value - (block.transaction.details.amount : Int) else value
          let a2 := if identity = block.transaction.details.destination_public_key then
            a1 + (block.transaction.details.amount : Int) else a1
          let a3 := if identity = block.node_public_key then a2 + 1 else a2
          balance_spec fuel a3 chain block.previous_hash identity

/-- Number of blocks processed by the balance walk from `h` before it ends,
i.e. the recursion depth of Rust `amount`: the walk ends at the root, at a
missing key, or at a self-transfer block, and otherwise steps through the
block at `h` to its `previous_hash`. -/
inductive WalkLen (bc : Blockchain) : Hash → Nat → Prop where
  | root : WalkLen bc rootHash 0
  | miss : ∀ h, h ≠ rootHash → bcGet bc h = none → WalkLen bc h 0
  | selfT : ∀ h b, h ≠ rootHash → bcGet bc h = some b →
      b.transaction.details.source_public_key
        = b.transaction.details.destination_public_key →
      WalkLen bc h 0
  | step : ∀ h b n, h ≠ rootHash → bcGet bc h = some b →
      b.transaction.details.source_public_key
        ≠ b.transaction.details.destination_public_key →
      WalkLen bc b.previous_hash n → WalkLen bc h (n + 1)

/-- The balance walk from `h` reaches the root: every hop is present in the
store and no block on the way is a self-transfer. -/
inductive ReachesRoot (bc : Blockchain) : Hash → Prop where
  | root : ReachesRoot bc rootHash
  | step : ∀ h b, h ≠ rootHash → bcGet bc h = some b →
      b.transaction.details.source_public_key
        ≠ b.transaction.details.destination_public_key →
      ReachesRoot bc b.previous_hash → ReachesRoot bc h

/-- Every balance walk over the store ends after finitely many blocks. -/
def StoreTerminates (bc : Blockchain) : Prop :=
  ∀ h, ∃ n, WalkLen bc h n

/-- Node states reachable from `Node.new` by block ingestion and peer
registration, for a fixed block-hash function. -/
inductive Reachable (hashB : Block → Hash) : Node → Prop where
  | new : Reachable hashB Node.new
  | recv : ∀ {n b n2}, Reachable hashB n → block_received hashB n b = some n2 →
      Reachable hashB n2
  | peer : ∀ {n} (addr con : Nat), Reachable hashB n →
      Reachable hashB (n.add_peer addr con)

/-- Concrete source identity used by the evaluation scenarios. -/
def pkA : PublicKey := List.replicate 128 1

/-- Concrete destination identity used by the evaluation scenarios. -/
def pkB : PublicKey := List.replicate 128 2

/-- Concrete miner identity used by the evaluation scenarios. -/
def pkM : PublicKey := List.replicate 128 3

/-- A zero-amount transfer from `pkA` to `pkB` with the stub signature. -/
def txW : Transaction := ⟨⟨pkA, pkB, 0⟩, List.replicate 128 0⟩

/-- A block carrying `txW` that extends the root. -/
def blockW : Block := ⟨0, pkM, rootHash, List.replicate 32 0, txW⟩

/-- The hash assigned to ingested blocks in the evaluation scenarios. -/
def hashW : Hash := List.replicate 32 7

/-- A constant block-hash function for the evaluation scenarios. -/
def hashBW : Block → Hash := fun _ => hashW

/-- A block-hash function whose digests are all-0xFF, the largest 32-byte
value, so every proof-of-work attempt is rejected. -/
def hashBMax : Block → Hash := fun _ => List.replicate 32 255

/-- A node whose tip differs from the root, so `blockW` is a side block. -/
def nodeSideW : Node := { Node.new with tip_hash := List.replicate 32 9 }

/-- The node obtained by ingesting `blockW` into a fresh node under
`hashBW`: the block is stored under `hashW` and promoted to tip. -/
def nodeAfterW : Node := ⟨read_public_key_from_disk, [(hashW, blockW)], hashW, []⟩

/-- A block spending 1 from `pkA`, which has no funds on the empty chain. -/
def blockPoorW : Block := ⟨0, pkM, rootHash, List.replicate 32 0,
  ⟨⟨pkA, pkB, 1⟩, List.replicate 128 0⟩⟩

/-- A ProtoBlock with the initial all-zero nonce. -/
def pbZeroW : ProtoBlock := ⟨List.replicate 32 0, txW⟩

/-- A ProtoBlock whose 32-byte nonce is all 0xFF. -/
def pbMaxW : ProtoBlock := ⟨List.replicate 32 255, txW⟩

deriving instance DecidableEq for Except

lemma step_value_shift (value : Int) (block : Block) (id : PublicKey) :
    step_value value block id = value + step_value 0 block id := by
  unfold step_value
  split <;> split <;> split <;> ring

lemma option_except_map_comp (o : Option (Except String Int)) (f g : Int → Int) :
    (o.map (Except.map g)).map (Except.map f)
      = o.map (Except.map fun w => f (g w)) := by
  cases o with
  | none => rfl
  | some e => cases e <;> rfl

lemma amountF_shift (fuel : Nat) :
    ∀ (value : Int) (bc : Blockchain) (h : Hash) (id : PublicKey),
      amountF fuel value bc h id
        = (amountF fuel 0 bc h id).map (Except.map fun w => value + w) := by
  induction fuel with
  | zero => intro value bc h id; rfl
  | succ f ih =>
    intro value bc h id
    simp only [amountF]
    split
    · simp [Except.map]
    · cases hg : bcGet bc h with
      | none => rfl
      | some block =>
        simp only []
        split
        · rfl
        · rw [ih (step_value value block id), ih (step_value 0 block id),
            option_except_map_comp]
          have hfun : (fun w : Int => step_value value block id + w)
              = fun w : Int => value + (step_value 0 block id + w) := by
            funext w
            rw [step_value_shift value block id]
            ring
          rw [hfun]

lemma amountF_refines_spec (fuel : Nat) :
    ∀ (value : Int) (bc : Blockchain) (h : Hash) (id : PublicKey),
      (amountF fuel value bc h id).map (Except.mapError fun _ => ())
        = balance_spec fuel value bc h id := by
  induction fuel with
  | zero => intro value bc h id; rfl
  | succ f ih =>
    intro value bc h id
    simp only [amountF, balance_spec]
    split
    · rfl
    · cases hg : bcGet bc h with
      | none => rfl
      | some block =>
        simp only []
        split
        · rfl
        · exact ih _ bc block.previous_hash id

lemma bcGet_cons (k : Hash) (b : Block) (bc : Blockchain) (h : Hash) :
    bcGet ((k, b) :: bc) h = if k = h then some b else bcGet bc h := rfl

lemma bcGet_cons_self (k : Hash) (b : Block) (bc : Blockchain) :
    bcGet ((k, b) :: bc) k = some b := by
  simp [bcGet]

lemma walkLen_amountF_isSome {bc : Blockchain} {h : Hash} {n : Nat}
    (hw : WalkLen bc h n) :
    ∀ (value : Int) (id : PublicKey), (amountF (n + 1) value bc h id).isSome = true := by
  induction hw with
  | root => intro value id; simp [amountF]
  | miss h hne hget => intro value id; simp [amountF, hne, hget]
  | selfT h b hne hget heq => intro value id; simp [amountF, hne, hget, heq]
  | step h b n hne hget hneq hwprev ih =>
    intro value id
    simp only [amountF, if_neg hne, hget, if_neg hneq]
    exact ih _ _

lemma reachesRoot_of_amountF_ok :
    ∀ (fuel : Nat) (value : Int) (bc : Blockchain) (h : Hash) (id : PublicKey)
      (w : Int), amountF fuel value bc h id = some (Except.ok w) → ReachesRoot bc h := by
  intro fuel
  induction fuel with
  | zero => intro value bc h id w hr; cases hr
  | succ f ih =>
    intro value bc h id w hr
    by_cases hroot : h = rootHash
    · subst hroot; exact ReachesRoot.root
    · simp only [amountF, if_neg hroot] at hr
      split at hr
      · next b hget =>
          split at hr
          · cases hr
          · next hneq =>
              exact ReachesRoot.step h b hroot hget hneq (ih _ bc _ id w hr)
      · cases hr

lemma reachesRoot_cons {bc : Blockchain} {k : Hash} {h : Hash} (blk : Block)
    (hk : bcGet bc k = none) (hr : ReachesRoot bc h) :
    ReachesRoot ((k, blk) :: bc) h := by
  induction hr with
  | root => exact ReachesRoot.root
  | step h b hne hget hneq hprev ih =>
    have hkh : k ≠ h := by
      intro e; rw [e, hget] at hk; cases hk
    exact ReachesRoot.step h b hne (by rw [bcGet_cons, if_neg hkh]; exact hget) hneq ih

lemma walkLen_of_reachesRoot {bc : Blockchain} {h : Hash} (hr : ReachesRoot bc h) :
    ∃ n, WalkLen bc h n := by
  induction hr with
  | root => exact ⟨0, WalkLen.root⟩
  | step h b hne hget hneq hprev ih =>
    obtain ⟨n, hn⟩ := ih
    exact ⟨n + 1, WalkLen.step h b n hne hget hneq hn⟩

lemma walkLen_cons {bc : Blockchain} {k : Hash} {h : Hash} {n : Nat} (blk : Block)
    (hk : bcGet bc k = none) (hprev : ReachesRoot bc blk.previous_hash)
    (hw : WalkLen bc h n) :
    ∃ m, WalkLen ((k, blk) :: bc) h m := by
  induction hw with
  | root => exact ⟨0, WalkLen.root⟩
  | miss h hne hget =>
    by_cases hkh : k = h
    · subst hkh
      by_cases heq : blk.transaction.details.source_public_key
          = blk.transaction.details.destination_public_key
      · exact ⟨0, WalkLen.selfT k blk hne (bcGet_cons_self _ _ _) heq⟩
      · obtain ⟨p, hp⟩ := walkLen_of_reachesRoot (reachesRoot_cons blk hk hprev)
        exact ⟨p + 1, WalkLen.step k blk p hne (bcGet_cons_self _ _ _) heq hp⟩
    · exact ⟨0, WalkLen.miss h hne (by rw [bcGet_cons, if_neg hkh]; exact hget)⟩
  | selfT h b hne hget heq =>
    have hkh : k ≠ h := by intro e; rw [e, hget] at hk; cases hk
    exact ⟨0, WalkLen.selfT h b hne (by rw [bcGet_cons, if_neg hkh]; exact hget) heq⟩
  | step h b m hne hget hneq hwprev ih =>
    obtain ⟨p, hp⟩ := ih
    have hkh : k ≠ h := by intro e; rw [e, hget] at hk; cases hk
    exact ⟨p + 1, WalkLen.step h b p hne (by rw [bcGet_cons, if_neg hkh]; exact hget) hneq hp⟩

lemma storeTerminates_nil : StoreTerminates [] := by
  intro h
  by_cases hr : h = rootHash
  · subst hr; exact ⟨0, WalkLen.root⟩
  · exact ⟨0, WalkLen.miss h hr rfl⟩

lemma storeTerminates_block_received {hashB : Block → Hash} {node : Node}
    {block : Block} {node2 : Node}
    (hst : StoreTerminates node.blockchain)
    (hbr : block_received hashB node block = some node2) :
    StoreTerminates node2.blockchain := by
  simp only [block_received] at hbr
  split at hbr
  · next b heq =>
      simp only [Option.some.injEq] at hbr
      subst hbr
      exact hst
  · next heq =>
      split at hbr
      · cases hbr
      · next hv =>
          simp only [Option.some.injEq] at hbr
          subst hbr
          exact hst
      · next hv =>
          simp only [Option.some.injEq] at hbr
          subst hbr
          have hreach : ReachesRoot node.blockchain block.previous_hash := by
            unfold valid_block at hv
            cases ha : amount 0 node.blockchain block.previous_hash
                block.transaction.details.source_public_key with
            | none => rw [ha] at hv; cases hv
            | some e =>
              rw [ha] at hv
              cases e with
              | ok v => exact reachesRoot_of_amountF_ok _ _ _ _ _ _ ha
              | error s => cases hv
          intro h
          obtain ⟨n, hn⟩ := hst h
          have hbceq : ({ (if block.previous_hash = node.tip_hash then
              { node with tip_hash := hashB block } else node) with
              blockchain := (hashB block, block) ::
                (if block.previous_hash = node.tip_hash then
                  { node with tip_hash := hashB block } else node).blockchain } :
                Node).blockchain
              = (hashB block, block) :: node.blockchain := by
            split <;> rfl
          rw [hbceq]
          exact walkLen_cons block heq hreach hn

/-- C1: for every chain store, tip hash and identity, the Balance Oracle
`amount` follows exactly the walk of the specification: starting from value 0
and the tip hash it fails on a self-transfer block or a missing hash, adjusts
the accumulator for source (−amount), destination (+amount) and miner (+1),
follows `previous_hash`, and returns the accumulated value at the root.
First conjunct: `amountF` refines `balance_spec`, the walk written from the
specification text (errors collapsed to the single `InvalidChain`).  Second
conjunct: the outcome is the outcome of the walk started at 0 shifted by the
initial value, so intermediate negative values never cause a failure. -/
theorem amount_follows_spec_walk (fuel : Nat) (value : Int) (chain : Blockchain)
    (tip_hash : Hash) (identity : PublicKey) :
    (amountF fuel value chain tip_hash identity).map (Except.mapError fun _ => ())
        = balance_spec fuel value chain tip_hash identity ∧
    amountF fuel value chain tip_hash identity
        = (amountF fuel 0 chain tip_hash identity).map (Except.map fun w => value + w) :=
  ⟨amountF_refines_spec fuel value chain tip_hash identity,
   amountF_shift fuel value chain tip_hash identity⟩

/-- C2: the Block Validator `valid_block` returns true iff the Balance Oracle
run at `block.previous_hash` for the block's source identity succeeds with a
balance at least the transaction amount and the source differs from the
destination (so spending exactly the derived balance is accepted), and it
returns false exactly on insufficient balance, self-transfer, or any oracle
failure. -/
theorem valid_block_iff_oracle (block : Block) (bc : Blockchain) :
    (valid_block block bc = some true ↔
      ∃ v : Int,
        amount 0 bc block.previous_hash block.transaction.details.source_public_key
          = some (Except.ok v) ∧
        (block.transaction.details.amount : Int) ≤ v ∧
        block.transaction.details.source_public_key
          ≠ block.transaction.details.destination_public_key) ∧
    (valid_block block bc = some false ↔
      (∃ v : Int,
        amount 0 bc block.previous_hash block.transaction.details.source_public_key
          = some (Except.ok v) ∧
        (v < (block.transaction.details.amount : Int) ∨
          block.transaction.details.source_public_key
            = block.transaction.details.destination_public_key)) ∨
      (∃ e, amount 0 bc block.previous_hash block.transaction.details.source_public_key
          = some (Except.error e))) := by
  unfold valid_block
  cases ha : amount 0 bc block.previous_hash block.transaction.details.source_public_key with
  | none => simp
  | some e =>
    cases e with
    | ok v =>
      constructor
      · simp only [Option.some.injEq, decide_eq_true_eq, Except.ok.injEq]
        constructor
        · intro hp
          exact ⟨v, rfl, hp.1, hp.2⟩
        · rintro ⟨v2, hv2, h1, h2⟩
          cases hv2
          exact ⟨h1, h2⟩
      · simp only [Option.some.injEq, decide_eq_false_iff_not, Except.ok.injEq,
          Except.error.injEq]
        constructor
        · intro hp
          rw [Classical.not_and_iff_or_not_not] at hp
          refine Or.inl ⟨v, rfl, ?_⟩
          rcases hp with hp | hp
          · exact Or.inl (by omega)
          · exact Or.inr (Classical.not_not.mp hp)
        · rintro (⟨v2, hv2, hp⟩ | ⟨e, he⟩)
          · cases hv2
            rcases hp with hp | hp
            · intro hc; omega
            · intro hc; exact hc.2 hp
          · cases he
    | error s => simp

/-- C3: evaluation of the rejection path at the initial all-zero nonce.  The
claim says the rejected ProtoBlock's nonce, read as an unsigned little-endian
integer, equals the old value plus 1; the code instead returns the bytes
`00^31 01` whose little-endian value is `2^248`, not `0 + 1 = 1`, because
`to_32bytes` pads the minimal little-endian digits of the incremented nonce
into the high end of the array, i.e. zeros fill the low-order positions. -/
theorem pow_rejection_nonce_jumps :
    proof_of_work hashBMax Node.new 0 pbZeroW =
      some (Except.error ⟨List.replicate 31 0 ++ [1], txW⟩) ∧
    fromBytesLE pbZeroW.nonce = 0 ∧
    fromBytesLE (List.replicate 31 0 ++ [1]) = 2 ^ 248 :=
  ⟨by decide, by decide, by decide⟩

/-- C4 counterexample: there is no exponent `k` such that the proof-of-work
acceptance test `hash < DIFFICULTY` coincides with `hash < 2 ^ k` on all
32-byte hashes: the bound `2^255 - 1` is not a power of two, and the hashes
encoding `2^255 - 1` and `2^255 - 2` pin any candidate `2 ^ k` to the
impossible value `2^255 - 1`. -/
theorem pow_bound_not_power_of_two :
    ¬ ∃ k : Nat, ∀ h : Hash, h.length = 32 → (∀ b ∈ h, b < 256) →
      (fromBytesLE h < DIFFICULTY ↔ fromBytesLE h < 2 ^ k) := by
  rintro ⟨k, hk⟩
  have h1 := hk (List.replicate 31 255 ++ [127]) (by decide) (by decide)
  have h2 := hk (254 :: (List.replicate 30 255 ++ [127])) (by decide) (by decide)
  rw [show fromBytesLE (List.replicate 31 255 ++ [127]) = 2 ^ 255 - 1 from by decide] at h1
  rw [show fromBytesLE (254 :: (List.replicate 30 255 ++ [127])) = 2 ^ 255 - 2 from by
    decide] at h2
  rw [show DIFFICULTY = 2 ^ 255 - 1 from rfl] at h1 h2
  have ha : ¬ (2 ^ 255 - 1 < 2 ^ k) := fun hc => absurd (h1.mpr hc) (lt_irrefl _)
  have hb : 2 ^ 255 - 2 < 2 ^ k := h2.mp (by norm_num)
  have hb2 : 2 ^ 255 - 1 ≤ 2 ^ k := by
    have hs := Nat.succ_le_of_lt hb
    calc 2 ^ 255 - 1 = 2 ^ 255 - 2 + 1 := by norm_num
    _ ≤ 2 ^ k := hs
  have heq : 2 ^ k = 2 ^ 255 - 1 := Nat.le_antisymm (Nat.le_of_not_lt ha) hb2
  cases k with
  | zero => rw [pow_zero] at heq; norm_num at heq
  | succ j =>
    rw [pow_succ] at heq
    have hmod : 2 ^ j * 2 % 2 = 0 := Nat.mul_mod_left (2 ^ j) 2
    rw [heq] at hmod
    norm_num at hmod

/-- C4 (amended): a proof-of-work attempt accepts the candidate block iff the
block's hash, read as an unsigned little-endian integer, is below the static
difficulty bound `2^255 - 1` — one less than a power of two, not itself a
power of two; the comparison is against this fixed constant, with no
difficulty adjustment. -/
theorem pow_accepts_iff_below_static_bound (hashB : Block → Hash) (node : Node)
    (time : Nat) (pb : ProtoBlock) :
    DIFFICULTY = 2 ^ 255 - 1 ∧
    ((∃ b, proof_of_work hashB node time pb = some (Except.ok b)) ↔
      fromBytesLE (hashB (candidate_block node time pb)) < 2 ^ 255 - 1) := by
  refine ⟨rfl, ?_⟩
  unfold proof_of_work
  by_cases hlt : fromBytesLE (hashB (candidate_block node time pb)) < DIFFICULTY
  · rw [if_pos hlt]
    exact ⟨fun _ => hlt, fun _ => ⟨candidate_block node time pb, rfl⟩⟩
  · rw [if_neg hlt]
    constructor
    · rintro ⟨b, hb⟩
      cases hnn : next_nonce pb.nonce with
      | some nn => simp [hnn] at hb
      | none => simp [hnn] at hb
    · intro hc
      exact absurd hc hlt

/-- C5: a block that validates but whose `previous_hash` differs from the
current tip is inserted into the chain store (retrievable by its hash) while
the tip hash and every other Node field stay unchanged, and re-ingesting the
stored side block is a no-op, so it is never later promoted to tip. -/
theorem side_block_stored_tip_unchanged (hashB : Block → Hash) (node : Node) (block : Block)
    (habs : bcGet node.blockchain (hashB block) = none)
    (hval : valid_block block node.blockchain = some true)
    (hside : block.previous_hash ≠ node.tip_hash) :
    ∃ node2,
      block_received hashB node block = some node2 ∧
      node2.blockchain = (hashB block, block) :: node.blockchain ∧
      bcGet node2.blockchain (hashB block) = some block ∧
      node2.tip_hash = node.tip_hash ∧
      node2.public_key = node.public_key ∧
      node2.peers = node.peers ∧
      block_received hashB node2 block = some node2 := by
  refine ⟨{ node with blockchain := (hashB block, block) :: node.blockchain },
    ?_, rfl, ?_, rfl, rfl, rfl, ?_⟩
  · simp [block_received, habs, hval, hside]
  · simp [bcGet]
  · simp [block_received, bcGet]

/-- C5 witness: a concrete side-chain scenario — a fresh node whose tip was
moved off the root, ingesting a valid block that extends the root. -/
theorem side_block_stored_tip_unchanged_witness :
    bcGet nodeSideW.blockchain (hashBW blockW) = none ∧
    valid_block blockW nodeSideW.blockchain = some true ∧
    blockW.previous_hash ≠ nodeSideW.tip_hash ∧
    (∃ node2,
      block_received hashBW nodeSideW blockW = some node2 ∧
      node2.blockchain = (hashBW blockW, blockW) :: nodeSideW.blockchain ∧
      bcGet node2.blockchain (hashBW blockW) = some blockW ∧
      node2.tip_hash = nodeSideW.tip_hash ∧
      node2.public_key = nodeSideW.public_key ∧
      node2.peers = nodeSideW.peers ∧
      block_received hashBW node2 blockW = some node2) :=
  ⟨by decide, by decide, by decide,
    side_block_stored_tip_unchanged hashBW nodeSideW blockW (by decide) (by decide)
      (by decide)⟩

/-- C6: ingesting a block whose hash is already in the chain store is a
silent no-op returning the node unchanged, and after any successful ingestion
ingesting the same block again leaves the resulting node unchanged. -/
theorem block_received_idem (hashB : Block → Hash) (node : Node) (block : Block) :
    (∀ b, bcGet node.blockchain (hashB block) = some b →
      block_received hashB node block = some node) ∧
    (∀ node2, block_received hashB node block = some node2 →
      block_received hashB node2 block = some node2) := by
  constructor
  · intro b hb
    simp [block_received, hb]
  · intro node2 h2
    simp only [block_received] at h2 ⊢
    split at h2
    · next b heq =>
        simp only [Option.some.injEq] at h2
        subst h2
        simp [heq]
    · next heq =>
        split at h2
        · cases h2
        · next hv =>
            simp only [Option.some.injEq] at h2
            subst h2
            simp [heq, hv]
        · next hv =>
            simp only [Option.some.injEq] at h2
            subst h2
            simp [bcGet]

/-- C6 witness: the node holding `blockW` under `hashW` ignores a second
ingestion of the same block. -/
theorem block_received_idem_witness :
    bcGet nodeAfterW.blockchain (hashBW blockW) = some blockW ∧
    block_received hashBW nodeAfterW blockW = some nodeAfterW :=
  ⟨by decide, (block_received_idem hashBW nodeAfterW blockW).1 blockW (by decide)⟩

/-- C7: in every Node state reachable from `Node.new` by block ingestion and
peer registration, the tip hash equals the all-zero root or the hash of a
block present in the chain store. -/
theorem tip_is_root_or_stored (hashB : Block → Hash) (node : Node)
    (hr : Reachable hashB node) :
    node.tip_hash = rootHash ∨ ∃ b, bcGet node.blockchain node.tip_hash = some b := by
  induction hr with
  | new => exact Or.inl rfl
  | peer addr con hr ih => simpa [Node.add_peer] using ih
  | recv hr hstep ih =>
    rename_i n block n2
    simp only [block_received] at hstep
    split at hstep
    · next b heq =>
        simp only [Option.some.injEq] at hstep
        subst hstep
        exact ih
    · next heq =>
        split at hstep
        · cases hstep
        · next hv =>
            simp only [Option.some.injEq] at hstep
            subst hstep
            exact ih
        · next hv =>
            simp only [Option.some.injEq] at hstep
            subst hstep
            split
            · next hprev =>
                exact Or.inr ⟨block, bcGet_cons_self _ _ _⟩
            · next hprev =>
                rcases ih with hroot | ⟨b, hb⟩
                · exact Or.inl hroot
                · by_cases hkh : hashB block = n.tip_hash
                  · exact Or.inr ⟨block, by rw [bcGet_cons, if_pos hkh]⟩
                  · exact Or.inr ⟨b, by rw [bcGet_cons, if_neg hkh]; exact hb⟩

/-- C7 witness: the invariant at the freshly created node. -/
theorem tip_is_root_or_stored_witness :
    Node.new.tip_hash = rootHash ∨
    ∃ b, bcGet Node.new.blockchain Node.new.tip_hash = some b :=
  tip_is_root_or_stored hashBW Node.new Reachable.new

/-- C8: ingesting a not-yet-stored block that the validator rejects leaves
the node — chain store, tip hash and all other fields — exactly unchanged,
and the ingestion returns normally rather than propagating an error. -/
theorem rejected_block_is_noop (hashB : Block → Hash) (node : Node) (block : Block)
    (habs : bcGet node.blockchain (hashB block) = none)
    (hrej : valid_block block node.blockchain = some false) :
    block_received hashB node block = some node := by
  simp [block_received, habs, hrej]

/-- C8 witness: a fresh node rejecting a block that spends 1 from an
identity with no funds. -/
theorem rejected_block_is_noop_witness :
    bcGet Node.new.blockchain (hashBW blockPoorW) = none ∧
    valid_block blockPoorW Node.new.blockchain = some false ∧
    block_received hashBW Node.new blockPoorW = some Node.new :=
  ⟨by decide, by decide,
    rejected_block_is_noop hashBW Node.new blockPoorW (by decide) (by decide)⟩

/-- C9: over every chain store reachable from the empty store by block
ingestion, the balance walk from any starting hash terminates, and its
recursion depth is the number `n` of blocks on the path from the starting
hash, witnessed by `WalkLen`: fuel `n + 1` (the initial call plus one
recursive call per block) makes `amountF` return a result. -/
theorem balance_walk_terminates (hashB : Block → Hash) (node : Node)
    (hr : Reachable hashB node) :
    ∀ (h : Hash) (id : PublicKey) (value : Int),
      ∃ n, WalkLen node.blockchain h n ∧
        (amountF (n + 1) value node.blockchain h id).isSome = true := by
  have hst : StoreTerminates node.blockchain := by
    induction hr with
    | new => exact storeTerminates_nil
    | recv hrec hstep ih => exact storeTerminates_block_received ih hstep
    | peer addr con hrec ih => simpa [Node.add_peer] using ih
  intro h id value
  obtain ⟨n, hn⟩ := hst h
  exact ⟨n, hn, walkLen_amountF_isSome hn value id⟩

/-- C9 witness: termination of the walk from the root on the fresh node. -/
theorem balance_walk_terminates_witness :
    ∃ n, WalkLen Node.new.blockchain rootHash n ∧
      (amountF (n + 1) 0 Node.new.blockchain rootHash pkA).isSome = true :=
  balance_walk_terminates hashBW Node.new Reachable.new rootHash pkA 0

/-- C10: `to_32bytes` is partial — it panics (modelled by `none`) exactly on
inputs longer than 32 bytes — and the panic is reachable through the public
proof-of-work rejection path: a ProtoBlock whose 32-byte nonce is all 0xFF
increments to a value whose little-endian encoding needs 33 bytes. -/
theorem to_32bytes_panics_on_long_input :
    (∀ v : List Byte, to_32bytes v = none ↔ 32 < v.length) ∧
    next_nonce (List.replicate 32 255) = none ∧
    proof_of_work hashBMax Node.new 0 pbMaxW = none := by
  refine ⟨?_, by decide, by decide⟩
  intro v
  unfold to_32bytes
  split
  · next hle =>
      simp
      omega
  · next hgt =>
      simp
      omega

end FCoin
